import Mathlib

/-!
Verification of the apple-sharp job-orchestration layer.

The definitions below are a shallow embedding of the Python sources:
- the Modal deployment (modal_app.py): the generate_splat submission
  endpoint, the SharpInference.run_inference worker, the download_file
  retrying reader, the download_mesh reader and the get_usage_stats report;
- the local server variant (server/routes/inference.py);
- the color post-processing (add_blender_vertex_colors, ply_to_splat.py).

Job identifiers (uuid strings in the code) are modelled as natural numbers;
the job dictionary (modal.Dict) as an association list; statuses exactly as
the string literals the code writes.
-/

/-- Association-list lookup, first binding wins (dict get). -/
def alGet {κ α : Type} [DecidableEq κ] : List (κ × α) → κ → Option α
  | [], _ => none
  | p :: t, k => if p.1 = k then some p.2 else alGet t k

/-- Overwrite every binding of a key (dict item assignment on present key). -/
def alSet {κ α : Type} [DecidableEq κ] (l : List (κ × α)) (k : κ) (v : α) : List (κ × α) :=
  l.map (fun p => if p.1 = k then (k, v) else p)

/-- Drop every binding of a key. -/
def alRemove {κ α : Type} [DecidableEq κ] (l : List (κ × α)) (k : κ) : List (κ × α) :=
  l.filter (fun p => p.1 != k)

theorem alGet_append_left {κ α : Type} [DecidableEq κ] {l₁ : List (κ × α)} (l₂ : List (κ × α))
    {k : κ} {v : α} (h : alGet l₁ k = some v) : alGet (l₁ ++ l₂) k = some v := by
  induction l₁ with
  | nil => simp [alGet] at h
  | cons p t ih =>
    simp only [alGet, List.cons_append] at h ⊢
    by_cases hp : p.1 = k
    · simpa [hp] using h
    · simp only [hp, if_false] at h ⊢
      exact ih h

theorem alGet_append_right {κ α : Type} [DecidableEq κ] {l₁ : List (κ × α)} (l₂ : List (κ × α))
    {k : κ} (h : alGet l₁ k = none) : alGet (l₁ ++ l₂) k = alGet l₂ k := by
  induction l₁ with
  | nil => simp
  | cons p t ih =>
    simp only [alGet, List.cons_append] at h ⊢
    by_cases hp : p.1 = k
    · simp [hp] at h
    · simp only [hp, if_false] at h ⊢
      exact ih h

theorem alGet_alSet_self {κ α : Type} [DecidableEq κ] (l : List (κ × α)) (k : κ) (v : α) :
    alGet (alSet l k v) k = (alGet l k).map (fun _ => v) := by
  induction l with
  | nil => simp [alGet, alSet]
  | cons p t ih =>
    by_cases hp : p.1 = k
    · simp [alGet, alSet, hp]
    · simp [alGet, alSet, hp] at ih ⊢
      exact ih

theorem alGet_alSet_ne {κ α : Type} [DecidableEq κ] (l : List (κ × α)) {j k : κ} (v : α)
    (h : j ≠ k) : alGet (alSet l k v) j = alGet l j := by
  induction l with
  | nil => simp [alGet, alSet]
  | cons p t ih =>
    by_cases hp : p.1 = k
    · have : k ≠ j := fun hkj => h hkj.symm
      simp [alGet, alSet, hp, this] at ih ⊢
      exact ih
    · simp only [alSet, List.map_cons, hp, if_false, alGet] at ih ⊢
      by_cases hq : p.1 = j
      · simp [hq]
      · simp [hq]
        exact ih

theorem alGet_alRemove_self {κ α : Type} [DecidableEq κ] (l : List (κ × α)) (k : κ) :
    alGet (alRemove l k) k = none := by
  induction l with
  | nil => simp [alRemove, alGet]
  | cons p t ih =>
    by_cases hp : p.1 = k
    · simpa [alRemove, hp] using ih
    · simp only [alRemove, List.filter_cons] at ih ⊢
      simp [hp, alGet, ih]

theorem alGet_alRemove_ne {κ α : Type} [DecidableEq κ] (l : List (κ × α)) {j k : κ}
    (h : j ≠ k) : alGet (alRemove l k) j = alGet l j := by
  have hkj : k ≠ j := fun e => h e.symm
  induction l with
  | nil => rfl
  | cons p t ih =>
    simp only [alRemove, List.filter_cons] at ih ⊢
    by_cases hp : p.1 = k
    · simp [hp, alGet, hkj, h, ih]
    · by_cases hq : p.1 = j
      · simp [hp, hq, alGet, h]
      · simp [hp, hq, alGet, h, ih]

theorem mem_alSet {κ α : Type} [DecidableEq κ] {l : List (κ × α)} {k : κ} {v : α} {q : κ × α}
    (h : q ∈ alSet l k v) : q = (k, v) ∨ (q ∈ l ∧ q.1 ≠ k) := by
  rcases List.mem_map.mp h with ⟨p, hp, hq⟩
  by_cases hpk : p.1 = k
  · left; simp [hpk] at hq; exact hq.symm
  · right
    constructor
    · simpa [hpk, ← hq] using hp
    · simp [hpk, ← hq]

theorem mem_alRemove {κ α : Type} [DecidableEq κ] {l : List (κ × α)} {k : κ} {q : κ × α}
    (h : q ∈ alRemove l k) : q ∈ l ∧ q.1 ≠ k := by
  have := List.mem_filter.mp h
  refine ⟨this.1, ?_⟩
  have hb := this.2
  simpa using hb

/-! ## Job records (modal_app.py job_dict entries) -/

/-- A job record as written into the modal.Dict job store.  Keys absent from
a given write are modelled as none. -/
structure JobRec where
  status : String
  statusDetail : Option String
  queuePosition : Nat
  estimatedWaitSeconds : Nat
  splatUrl : Option String
  splatPath : Option String
  processingTimeMs : Option Nat
  error : Option String
deriving DecidableEq, Repr

/-- The queue-position / ETA formula inlined in generate_splat
(modal_app.py lines 516-517 and 527-528): position is inflight+1 and the
wait estimate is position times 45 seconds. -/
def estimateCode (n : Nat) : Nat × Nat := (n + 1, (n + 1) * 45)

/-- The estimator as the spec words it (section 4.3): position inflight+1,
eta the ceiling of position over the concurrency ceiling 3, times the fixed
45-second average. -/
def estimateSpec (n : Nat) : Nat × Nat := (n + 1, ((n + 1 + 2) / 3) * 45)

/-- Record written by generate_splat at submission (status queued). -/
def queuedRec (n : Nat) : JobRec :=
  { status := "queued", statusDetail := none,
    queuePosition := (estimateCode n).1,
    estimatedWaitSeconds := (estimateCode n).2,
    splatUrl := none, splatPath := none, processingTimeMs := none, error := none }

/-- Record written by run_inference when it starts (status processing). -/
def processingRec : JobRec :=
  { status := "processing", statusDetail := some "Running Sharp inference...",
    queuePosition := 0, estimatedWaitSeconds := 0,
    splatUrl := none, splatPath := none, processingTimeMs := none, error := none }

/-- Record written by run_inference on success (status complete). -/
def completeRec (jid ms : Nat) : JobRec :=
  { status := "complete", statusDetail := some "Complete",
    queuePosition := 0, estimatedWaitSeconds := 0,
    splatUrl := some ("/api/download/" ++ toString jid ++ "/splat.ply"),
    splatPath := some ("/outputs/splats/" ++ toString jid ++ "/splat.ply"),
    processingTimeMs := some ms, error := none }

/-- Record written by the except handler of run_inference (status error). -/
def errorRec (msg : String) : JobRec :=
  { status := "error", statusDetail := some "Inference failed",
    queuePosition := 0, estimatedWaitSeconds := 0,
    splatUrl := none, splatPath := none, processingTimeMs := none,
    error := some msg }

/-! ## The job-store transition system -/

/-- Progress of one spawned run_inference invocation: not yet started;
started (the processing record written); or past the complete write but
before the volume commit returns. -/
inductive Phase where
  | spawned : Phase
  | running : Phase
  | awaitingCommit : Phase
deriving DecidableEq, Repr

/-- Shared state: the job dictionary plus the spawned worker invocations. -/
structure St where
  jobs : List (Nat × JobRec)
  tasks : List (Nat × Phase)
deriving DecidableEq, Repr

/-- Count of jobs whose status is queued or processing, as generate_splat
computes it (modal_app.py lines 503-510). -/
def inflightCount (jobs : List (Nat × JobRec)) : Nat :=
  (jobs.filter (fun p => p.2.status == "queued" || p.2.status == "processing")).length

/-- Count of jobs whose status is processing. -/
def countProcessing (jobs : List (Nat × JobRec)) : Nat :=
  (jobs.filter (fun p => p.2.status == "processing")).length

/-- Interleaved events of the system.  submit is the generate_splat body;
the rest are the successive writes a spawned run_inference performs:
startOk writes the processing record; startNoInput is the input-file-missing
raise before that write; finishOk writes the complete record; finishErr is
any exception during inference; commitOk ends a successful run; commitFail
is an exception from outputs_volume.commit after the complete write, which
the same except handler converts into an error record. -/
inductive Event where
  | submit : Nat → Event
  | startOk : Nat → Event
  | startNoInput : Nat → String → Event
  | finishOk : Nat → Nat → Event
  | finishErr : Nat → String → Event
  | commitOk : Nat → Event
  | commitFail : Nat → String → Event
deriving DecidableEq, Repr

/-- One step of the system.  An event whose guard does not hold (a worker
phase that is not current) leaves the state unchanged.  Note that submit
spawns run_inference unconditionally: the code has no admission check
against the processing count. -/
def stepF (s : St) : Event → St
  | .submit jid =>
      if (alGet s.jobs jid).isSome then s
      else { jobs := s.jobs ++ [(jid, queuedRec (inflightCount s.jobs))],
             tasks := (jid, Phase.spawned) :: s.tasks }
  | .startOk jid =>
      if alGet s.tasks jid = some Phase.spawned then
        { jobs := alSet s.jobs jid processingRec,
          tasks := alSet s.tasks jid Phase.running }
      else s
  | .startNoInput jid path =>
      if alGet s.tasks jid = some Phase.spawned then
        { jobs := alSet s.jobs jid (errorRec ("Input file not found: " ++ path)),
          tasks := alRemove s.tasks jid }
      else s
  | .finishOk jid ms =>
      if alGet s.tasks jid = some Phase.running then
        { jobs := alSet s.jobs jid (completeRec jid ms),
          tasks := alSet s.tasks jid Phase.awaitingCommit }
      else s
  | .finishErr jid msg =>
      if alGet s.tasks jid = some Phase.running then
        { jobs := alSet s.jobs jid (errorRec msg),
          tasks := alRemove s.tasks jid }
      else s
  | .commitOk jid =>
      if alGet s.tasks jid = some Phase.awaitingCommit then
        { jobs := s.jobs, tasks := alRemove s.tasks jid }
      else s
  | .commitFail jid msg =>
      if alGet s.tasks jid = some Phase.awaitingCommit then
        { jobs := alSet s.jobs jid (errorRec msg),
          tasks := alRemove s.tasks jid }
      else s

/-- The empty initial state. -/
def initState : St := { jobs := [], tasks := [] }

/-- Run a trace of events from the initial state. -/
def runEvents (tr : List Event) : St := tr.foldl stepF initState

/-- Status of a job in a state. -/
def statusOf (s : St) (k : Nat) : Option String :=
  (alGet s.jobs k).map JobRec.status

/-- CLAIM C1 (counterexample): submitting ceiling+1 = 4 jobs and letting each
spawned worker start yields a reachable state with 4 jobs in processing, so
the store does not keep at most 3 jobs processing; dispatch is not withheld
when the ceiling is reached. -/
theorem c1_counterexample :
    countProcessing (runEvents [Event.submit 0, Event.submit 1, Event.submit 2,
      Event.submit 3, Event.startOk 0, Event.startOk 1, Event.startOk 2,
      Event.startOk 3]).jobs = 4 ∧
    ¬ (countProcessing (runEvents [Event.submit 0, Event.submit 1, Event.submit 2,
      Event.submit 3, Event.startOk 0, Event.startOk 1, Event.startOk 2,
      Event.startOk 3]).jobs ≤ 3) := by
  constructor
  · decide
  · decide

/-- CLAIM C2 (counterexample): at inflight count 2 the code computes the
estimate (3, 135) while the claimed formula gives (3, 45). -/
theorem c2_counterexample :
    estimateCode 2 = (3, 135) ∧ estimateSpec 2 = (3, 45) ∧
    estimateCode 2 ≠ estimateSpec 2 := by
  decide

/-- CLAIM C2 (amended): the submission-time estimate is position = n + 1 and
etaSeconds = (n + 1) * 45 with no division by the concurrency ceiling; both
components are monotonically non-decreasing in n, and at n = 2 the estimate
is (3, 135). -/
theorem c2_amended_estimate (n : Nat) :
    estimateCode n = (n + 1, (n + 1) * 45) ∧
    (estimateCode n).1 ≤ (estimateCode (n + 1)).1 ∧
    (estimateCode n).2 ≤ (estimateCode (n + 1)).2 ∧
    estimateCode 2 = (3, 135) := by
  refine ⟨rfl, ?_, ?_, rfl⟩
  · simp [estimateCode]
  · simp [estimateCode]

/-- CLAIM C4 (counterexample): in the empty store the processing count 0 is
below the ceiling 3, yet the job record a submission writes and returns
carries queuePosition 1, not 0. -/
theorem c4_counterexample :
    countProcessing initState.jobs = 0 ∧ (0 : Nat) < 3 ∧
    alGet (runEvents [Event.submit 0]).jobs 0 = some (queuedRec 0) ∧
    (queuedRec 0).queuePosition = 1 ∧ (queuedRec 0).queuePosition ≠ 0 := by
  refine ⟨rfl, by decide, by decide, rfl, by decide⟩

/-- CLAIM C4 (amended): every successful submission, whatever the processing
count, stores and returns a job whose queuePosition is inflight + 1 and whose
estimatedWaitSeconds is (inflight + 1) * 45; the position fields are never
reset to 0 before the caller observes them. -/
theorem c4_amended_submit (s : St) (jid : Nat) (h : alGet s.jobs jid = none) :
    alGet (stepF s (Event.submit jid)).jobs jid
      = some (queuedRec (inflightCount s.jobs)) ∧
    (queuedRec (inflightCount s.jobs)).queuePosition = inflightCount s.jobs + 1 ∧
    (queuedRec (inflightCount s.jobs)).estimatedWaitSeconds
      = (inflightCount s.jobs + 1) * 45 := by
  refine ⟨?_, rfl, rfl⟩
  have hfalse : (alGet s.jobs jid).isSome = false := by simp [h]
  simp only [stepF, hfalse, Bool.false_eq_true, if_false]
  have : alGet [(jid, queuedRec (inflightCount s.jobs))] jid
      = some (queuedRec (inflightCount s.jobs)) := by simp [alGet]
  exact (alGet_append_right _ h).trans this

/-- Witness for c4_amended_submit at the empty store. -/
theorem c4_amended_submit_witness :
    alGet (stepF initState (Event.submit 0)).jobs 0
      = some (queuedRec (inflightCount initState.jobs)) ∧
    (queuedRec (inflightCount initState.jobs)).queuePosition
      = inflightCount initState.jobs + 1 ∧
    (queuedRec (inflightCount initState.jobs)).estimatedWaitSeconds
      = (inflightCount initState.jobs + 1) * 45 :=
  c4_amended_submit initState 0 rfl

/-! ## Reachability of arbitrarily many processing jobs (claim C1) -/

/-- Trace that submits jobs 0..n-1 and lets each spawned worker start. -/
def pumpTrace : Nat → List Event
  | 0 => []
  | n + 1 => pumpTrace n ++ [Event.submit n, Event.startOk n]

/-- Job store with jobs 0..n-1 all in processing. -/
def pumpJobs (n : Nat) : List (Nat × JobRec) :=
  (List.range n).map (fun i => (i, processingRec))

/-- Task list matching pumpJobs: every worker running. -/
def pumpTasks (n : Nat) : List (Nat × Phase) :=
  ((List.range n).reverse).map (fun i => (i, Phase.running))

theorem alGet_map_notmem {α : Type} (l : List Nat) (f : Nat → α) {k : Nat}
    (h : k ∉ l) : alGet (l.map (fun i => (i, f i))) k = none := by
  induction l with
  | nil => rfl
  | cons a t ih =>
    have hak : a ≠ k := fun e => h (e ▸ List.mem_cons_self a t)
    have ht : k ∉ t := fun e => h (List.mem_cons_of_mem a e)
    simp [alGet, hak, ih ht]

theorem alSet_map_notmem {α : Type} (l : List Nat) (f : Nat → α) {k : Nat}
    (v : α) (h : k ∉ l) :
    alSet (l.map (fun i => (i, f i))) k v = l.map (fun i => (i, f i)) := by
  induction l with
  | nil => rfl
  | cons a t ih =>
    have hak : a ≠ k := fun e => h (e ▸ List.mem_cons_self a t)
    have ht : k ∉ t := fun e => h (List.mem_cons_of_mem a e)
    simp [alSet, hak] at ih ⊢
    exact ih ht

theorem countProcessing_map (l : List Nat) :
    countProcessing (l.map (fun i => (i, processingRec))) = l.length := by
  induction l with
  | nil => rfl
  | cons a t ih =>
    unfold countProcessing at ih ⊢
    rw [List.map_cons, List.filter_cons_of_pos (by rfl), List.length_cons, ih,
      List.length_cons]

/-- Running the pump trace reaches the state with all n jobs processing. -/
theorem runEvents_pumpTrace (n : Nat) :
    runEvents (pumpTrace n) = { jobs := pumpJobs n, tasks := pumpTasks n } := by
  induction n with
  | zero => rfl
  | succ n ih =>
    have hnot : n ∉ List.range n := by simp
    have hnotr : n ∉ (List.range n).reverse := by simp
    have h1 : runEvents (pumpTrace (n + 1))
        = stepF (stepF (runEvents (pumpTrace n)) (Event.submit n)) (Event.startOk n) := by
      simp [runEvents, pumpTrace, List.foldl_append]
    rw [h1, ih]
    have hget : alGet (pumpJobs n) n = none := alGet_map_notmem _ _ hnot
    have hsub : stepF { jobs := pumpJobs n, tasks := pumpTasks n } (Event.submit n)
        = { jobs := pumpJobs n ++ [(n, queuedRec (inflightCount (pumpJobs n)))],
            tasks := (n, Phase.spawned) :: pumpTasks n } := by
      simp [stepF, hget]
    rw [hsub]
    have hgett : alGet ((n, Phase.spawned) :: pumpTasks n) n = some Phase.spawned := by
      simp [alGet]
    simp only [stepF, hgett, if_pos]
    congr 1
    · show alSet (pumpJobs n ++ [(n, queuedRec (inflightCount (pumpJobs n)))]) n processingRec
        = pumpJobs (n + 1)
      have : alSet (pumpJobs n) n processingRec = pumpJobs n :=
        alSet_map_notmem _ _ _ hnot
      simp only [alSet, List.map_append] at this ⊢
      rw [show ((pumpJobs n).map fun p => if p.1 = n then (n, processingRec) else p)
            = pumpJobs n from this]
      simp [pumpJobs, List.range_succ]
    · show alSet ((n, Phase.spawned) :: pumpTasks n) n Phase.running = pumpTasks (n + 1)
      have : alSet (pumpTasks n) n Phase.running = pumpTasks n :=
        alSet_map_notmem _ _ _ hnotr
      simp only [alSet, List.map_cons, if_pos rfl] at this ⊢
      rw [show ((pumpTasks n).map fun p => if p.1 = n then (n, Phase.running) else p)
            = pumpTasks n from this]
      simp [pumpTasks, List.range_succ]

/-- CLAIM C1 (amended): generate_splat spawns the inference worker
unconditionally, with no admission check against the processing count, so for
every k there is a reachable state of the job store with 3 + k jobs in
processing at once; the concurrency ceiling of 3 is not enforced. -/
theorem c1_amended_unbounded_processing (k : Nat) :
    countProcessing (runEvents (pumpTrace (3 + k))).jobs = 3 + k := by
  rw [runEvents_pumpTrace]
  show countProcessing (pumpJobs (3 + k)) = 3 + k
  rw [pumpJobs, countProcessing_map, List.length_range]

/-! ## Reachable-state invariants (claims C3, C6, C10) -/

/-- The only status strings ever written into the job store. -/
def allowedStatus (st : String) : Prop :=
  st = "queued" ∨ st = "processing" ∨ st = "complete" ∨ st = "error"

/-- Per-record invariant: allowed status; the result locator exactly when
complete, the error field exactly when error, neither while non-terminal. -/
def recInv (r : JobRec) : Prop :=
  allowedStatus r.status ∧
  (r.status = "complete" → r.splatUrl.isSome = true ∧ r.error = none) ∧
  (r.status = "error" → r.error.isSome = true ∧ r.splatUrl = none) ∧
  ((r.status = "queued" ∨ r.status = "processing") → r.splatUrl = none ∧ r.error = none)

theorem recInv_queuedRec (n : Nat) : recInv (queuedRec n) := by
  simp [recInv, queuedRec, allowedStatus]

theorem recInv_processingRec : recInv processingRec := by
  simp [recInv, processingRec, allowedStatus]

theorem recInv_completeRec (jid ms : Nat) : recInv (completeRec jid ms) := by
  simp [recInv, completeRec, allowedStatus]

theorem recInv_errorRec (msg : String) : recInv (errorRec msg) := by
  simp [recInv, errorRec, allowedStatus]

/-- The job status a worker invocation in a given phase has last written. -/
def phaseStatus : Phase → String
  | .spawned => "queued"
  | .running => "processing"
  | .awaitingCommit => "complete"

/-- A task in phase ph points at a job whose current status matches it. -/
def phaseOk (jobs : List (Nat × JobRec)) (k : Nat) (ph : Phase) : Prop :=
  (alGet jobs k).map JobRec.status = some (phaseStatus ph)

/-- The whole-state invariant: every stored record satisfies recInv and
every live task is consistent with its job status. -/
def stInv (s : St) : Prop :=
  (∀ p ∈ s.jobs, recInv p.2) ∧ (∀ q ∈ s.tasks, phaseOk s.jobs q.1 q.2)

theorem alGet_mem {κ α : Type} [DecidableEq κ] {l : List (κ × α)} {k : κ} {v : α}
    (h : alGet l k = some v) : (k, v) ∈ l := by
  induction l with
  | nil => simp [alGet] at h
  | cons p t ih =>
    rcases p with ⟨a, b⟩
    by_cases hp : a = k
    · simp only [alGet, hp, if_pos] at h
      have hb : b = v := by simpa using h
      subst hp
      subst hb
      exact List.mem_cons_self _ _
    · simp only [alGet, hp, if_false] at h
      exact List.mem_cons_of_mem _ (ih h)

theorem phaseOk_append {jobs : List (Nat × JobRec)} {k : Nat} {ph : Phase}
    (l₂ : List (Nat × JobRec)) (h : phaseOk jobs k ph) :
    phaseOk (jobs ++ l₂) k ph := by
  simp only [phaseOk] at h ⊢
  obtain ⟨r, hr, hst⟩ := Option.map_eq_some'.mp h
  rw [alGet_append_left l₂ hr, Option.map_some', hst]

theorem phaseOk_alSet_ne {jobs : List (Nat × JobRec)} {k jid : Nat} {ph : Phase}
    (v : JobRec) (h : k ≠ jid) (hp : phaseOk jobs k ph) :
    phaseOk (alSet jobs jid v) k ph := by
  simp only [phaseOk] at hp ⊢
  rw [alGet_alSet_ne jobs v h]
  exact hp

theorem stInv_write_remove (s : St) (jid : Nat) (r : JobRec) (hrec : recInv r)
    (h : stInv s) :
    stInv { jobs := alSet s.jobs jid r, tasks := alRemove s.tasks jid } := by
  obtain ⟨hjobs, htasks⟩ := h
  constructor
  · intro p hp
    rcases mem_alSet hp with hp | ⟨hp, _⟩
    · rw [hp]; exact hrec
    · exact hjobs p hp
  · intro q hq
    obtain ⟨hq, hne⟩ := mem_alRemove hq
    exact phaseOk_alSet_ne r hne (htasks q hq)

theorem stInv_write_set (s : St) (jid : Nat) (r : JobRec) (ph' : Phase)
    (hrec : recInv r) (hex : ∃ w, alGet s.jobs jid = some w)
    (hlink : r.status = phaseStatus ph') (h : stInv s) :
    stInv { jobs := alSet s.jobs jid r, tasks := alSet s.tasks jid ph' } := by
  obtain ⟨hjobs, htasks⟩ := h
  constructor
  · intro p hp
    rcases mem_alSet hp with hp | ⟨hp, _⟩
    · rw [hp]; exact hrec
    · exact hjobs p hp
  · intro q hq
    rcases mem_alSet hq with hq | ⟨hq, hne⟩
    · rw [hq]
      show phaseOk (alSet s.jobs jid r) jid ph'
      obtain ⟨w, hw⟩ := hex
      simp only [phaseOk]
      rw [alGet_alSet_self, hw, Option.map_some', Option.map_some', hlink]
    · exact phaseOk_alSet_ne r hne (htasks q hq)

theorem stInv_remove_only (s : St) (jid : Nat) (h : stInv s) :
    stInv { jobs := s.jobs, tasks := alRemove s.tasks jid } := by
  obtain ⟨hjobs, htasks⟩ := h
  refine ⟨hjobs, fun q hq => ?_⟩
  obtain ⟨hq, _⟩ := mem_alRemove hq
  exact htasks q hq

/-- From a task guard, the linked job exists. -/
theorem job_exists_of_phase {s : St} {jid : Nat} {ph : Phase}
    (h : stInv s) (hc : alGet s.tasks jid = some ph) :
    ∃ w, alGet s.jobs jid = some w ∧ w.status = phaseStatus ph := by
  have hph := h.2 _ (alGet_mem hc)
  simp only [phaseOk] at hph
  obtain ⟨r, hr, hst⟩ := Option.map_eq_some'.mp hph
  exact ⟨r, hr, hst⟩

/-- Every step of the system preserves the state invariant. -/
theorem stInv_step (s : St) (e : Event) (h : stInv s) : stInv (stepF s e) := by
  cases e with
  | submit jid =>
    cases hc : alGet s.jobs jid with
    | some v =>
      have heq : stepF s (Event.submit jid) = s := by simp [stepF, hc]
      rw [heq]; exact h
    | none =>
      have heq : stepF s (Event.submit jid)
          = { jobs := s.jobs ++ [(jid, queuedRec (inflightCount s.jobs))],
              tasks := (jid, Phase.spawned) :: s.tasks } := by simp [stepF, hc]
      rw [heq]
      obtain ⟨hjobs, htasks⟩ := h
      constructor
      · intro p hp
        rcases List.mem_append.mp hp with hp | hp
        · exact hjobs p hp
        · have : p = (jid, queuedRec (inflightCount s.jobs)) := by simpa using hp
          rw [this]; exact recInv_queuedRec _
      · intro q hq
        rcases List.mem_cons.mp hq with hq | hq
        · rw [hq]
          show phaseOk (s.jobs ++ [(jid, queuedRec (inflightCount s.jobs))])
            jid Phase.spawned
          simp only [phaseOk]
          rw [alGet_append_right _ hc]
          simp [alGet, queuedRec, phaseStatus]
        · exact phaseOk_append _ (htasks q hq)
  | startOk jid =>
    cases hc : alGet s.tasks jid with
    | none =>
      have heq : stepF s (Event.startOk jid) = s := by simp [stepF, hc]
      rw [heq]; exact h
    | some ph =>
      cases ph with
      | spawned =>
        have heq : stepF s (Event.startOk jid)
            = { jobs := alSet s.jobs jid processingRec,
                tasks := alSet s.tasks jid Phase.running } := by simp [stepF, hc]
        rw [heq]
        obtain ⟨w, hw, _⟩ := job_exists_of_phase h hc
        exact stInv_write_set s jid processingRec Phase.running
          recInv_processingRec ⟨w, hw⟩ rfl h
      | running =>
        have heq : stepF s (Event.startOk jid) = s := by simp [stepF, hc]
        rw [heq]; exact h
      | awaitingCommit =>
        have heq : stepF s (Event.startOk jid) = s := by simp [stepF, hc]
        rw [heq]; exact h
  | startNoInput jid path =>
    cases hc : alGet s.tasks jid with
    | none =>
      have heq : stepF s (Event.startNoInput jid path) = s := by simp [stepF, hc]
      rw [heq]; exact h
    | some ph =>
      cases ph with
      | spawned =>
        have heq : stepF s (Event.startNoInput jid path)
            = { jobs := alSet s.jobs jid (errorRec ("Input file not found: " ++ path)),
                tasks := alRemove s.tasks jid } := by simp [stepF, hc]
        rw [heq]
        exact stInv_write_remove s jid _ (recInv_errorRec _) h
      | running =>
        have heq : stepF s (Event.startNoInput jid path) = s := by simp [stepF, hc]
        rw [heq]; exact h
      | awaitingCommit =>
        have heq : stepF s (Event.startNoInput jid path) = s := by simp [stepF, hc]
        rw [heq]; exact h
  | finishOk jid ms =>
    cases hc : alGet s.tasks jid with
    | none =>
      have heq : stepF s (Event.finishOk jid ms) = s := by simp [stepF, hc]
      rw [heq]; exact h
    | some ph =>
      cases ph with
      | running =>
        have heq : stepF s (Event.finishOk jid ms)
            = { jobs := alSet s.jobs jid (completeRec jid ms),
                tasks := alSet s.tasks jid Phase.awaitingCommit } := by
          simp [stepF, hc]
        rw [heq]
        obtain ⟨w, hw, _⟩ := job_exists_of_phase h hc
        exact stInv_write_set s jid (completeRec jid ms) Phase.awaitingCommit
          (recInv_completeRec jid ms) ⟨w, hw⟩ rfl h
      | spawned =>
        have heq : stepF s (Event.finishOk jid ms) = s := by simp [stepF, hc]
        rw [heq]; exact h
      | awaitingCommit =>
        have heq : stepF s (Event.finishOk jid ms) = s := by simp [stepF, hc]
        rw [heq]; exact h
  | finishErr jid msg =>
    cases hc : alGet s.tasks jid with
    | none =>
      have heq : stepF s (Event.finishErr jid msg) = s := by simp [stepF, hc]
      rw [heq]; exact h
    | some ph =>
      cases ph with
      | running =>
        have heq : stepF s (Event.finishErr jid msg)
            = { jobs := alSet s.jobs jid (errorRec msg),
                tasks := alRemove s.tasks jid } := by simp [stepF, hc]
        rw [heq]
        exact stInv_write_remove s jid _ (recInv_errorRec _) h
      | spawned =>
        have heq : stepF s (Event.finishErr jid msg) = s := by simp [stepF, hc]
        rw [heq]; exact h
      | awaitingCommit =>
        have heq : stepF s (Event.finishErr jid msg) = s := by simp [stepF, hc]
        rw [heq]; exact h
  | commitOk jid =>
    cases hc : alGet s.tasks jid with
    | none =>
      have heq : stepF s (Event.commitOk jid) = s := by simp [stepF, hc]
      rw [heq]; exact h
    | some ph =>
      cases ph with
      | awaitingCommit =>
        have heq : stepF s (Event.commitOk jid)
            = { jobs := s.jobs, tasks := alRemove s.tasks jid } := by simp [stepF, hc]
        rw [heq]
        exact stInv_remove_only s jid h
      | spawned =>
        have heq : stepF s (Event.commitOk jid) = s := by simp [stepF, hc]
        rw [heq]; exact h
      | running =>
        have heq : stepF s (Event.commitOk jid) = s := by simp [stepF, hc]
        rw [heq]; exact h
  | commitFail jid msg =>
    cases hc : alGet s.tasks jid with
    | none =>
      have heq : stepF s (Event.commitFail jid msg) = s := by simp [stepF, hc]
      rw [heq]; exact h
    | some ph =>
      cases ph with
      | awaitingCommit =>
        have heq : stepF s (Event.commitFail jid msg)
            = { jobs := alSet s.jobs jid (errorRec msg),
                tasks := alRemove s.tasks jid } := by simp [stepF, hc]
        rw [heq]
        exact stInv_write_remove s jid _ (recInv_errorRec _) h
      | spawned =>
        have heq : stepF s (Event.commitFail jid msg) = s := by simp [stepF, hc]
        rw [heq]; exact h
      | running =>
        have heq : stepF s (Event.commitFail jid msg) = s := by simp [stepF, hc]
        rw [heq]; exact h

theorem stInv_initState : stInv initState := by
  constructor <;> intro p hp <;> simp [initState] at hp

theorem stInv_foldl (tr : List Event) (s : St) (h : stInv s) :
    stInv (tr.foldl stepF s) := by
  induction tr generalizing s with
  | nil => exact h
  | cons e t ih => exact ih (stepF s e) (stInv_step s e h)

/-- Every reachable state satisfies the invariant. -/
theorem stInv_run (tr : List Event) : stInv (runEvents tr) :=
  stInv_foldl tr initState stInv_initState

/-! ## Status-transition edges (claim C3) -/

/-- The edge relation the claim asserts: a job status is unchanged, or is
created as queued, or moves along queued to processing to complete or error. -/
def edgeSpec (a b : Option String) : Prop :=
  a = b ∨ (a = none ∧ b = some "queued") ∨
  (a = some "queued" ∧ b = some "processing") ∨
  (a = some "processing" ∧ b = some "complete") ∨
  (a = some "processing" ∧ b = some "error")

/-- The edge relation the code actually realizes: the claimed edges plus
queued to error (input file missing when run_inference starts) and complete
to error (the volume commit after the complete write raises and the except
handler overwrites the record). -/
def edgeCode (a b : Option String) : Prop :=
  edgeSpec a b ∨ (a = some "queued" ∧ b = some "error") ∨
  (a = some "complete" ∧ b = some "error")

theorem edge_refl (a : Option String) : edgeCode a a := Or.inl (Or.inl rfl)

theorem statusOf_set_ne (s : St) {jid k : Nat} (r : JobRec)
    (tasks : List (Nat × Phase)) (hk : k ≠ jid) :
    statusOf { jobs := alSet s.jobs jid r, tasks := tasks } k = statusOf s k := by
  simp only [statusOf]
  rw [alGet_alSet_ne _ r hk]

theorem statusOf_append_ne (s : St) {jid k : Nat} (r : JobRec)
    (tasks : List (Nat × Phase)) (hk : k ≠ jid) :
    statusOf { jobs := s.jobs ++ [(jid, r)], tasks := tasks } k = statusOf s k := by
  have hk' : jid ≠ k := Ne.symm hk
  simp only [statusOf]
  cases hck : alGet s.jobs k with
  | some w => rw [alGet_append_left _ hck]
  | none => rw [alGet_append_right _ hck]; simp [alGet, hk']

/-- In any state satisfying the invariant, one step moves every job status
along an edge of edgeCode. -/
theorem statusOf_step_edge (s : St) (h : stInv s) (e : Event) (k : Nat) :
    edgeCode (statusOf s k) (statusOf (stepF s e) k) := by
  cases e with
  | submit jid =>
    cases hc : alGet s.jobs jid with
    | some v =>
      have heq : stepF s (Event.submit jid) = s := by simp [stepF, hc]
      rw [heq]; exact edge_refl _
    | none =>
      have heq : stepF s (Event.submit jid)
          = { jobs := s.jobs ++ [(jid, queuedRec (inflightCount s.jobs))],
              tasks := (jid, Phase.spawned) :: s.tasks } := by simp [stepF, hc]
      rw [heq]
      by_cases hk : k = jid
      · subst hk
        have ha : statusOf s k = none := by simp [statusOf, hc]
        have hb : statusOf
            { jobs := s.jobs ++ [(k, queuedRec (inflightCount s.jobs))],
              tasks := (k, Phase.spawned) :: s.tasks } k = some "queued" := by
          simp only [statusOf]
          rw [alGet_append_right _ hc]
          simp [alGet, queuedRec]
        exact Or.inl (Or.inr (Or.inl ⟨ha, hb⟩))
      · rw [statusOf_append_ne s _ _ hk]
        exact edge_refl _
  | startOk jid =>
    cases hc : alGet s.tasks jid with
    | none =>
      have heq : stepF s (Event.startOk jid) = s := by simp [stepF, hc]
      rw [heq]; exact edge_refl _
    | some ph =>
      cases ph with
      | spawned =>
        have heq : stepF s (Event.startOk jid)
            = { jobs := alSet s.jobs jid processingRec,
                tasks := alSet s.tasks jid Phase.running } := by simp [stepF, hc]
        rw [heq]
        by_cases hk : k = jid
        · subst hk
          obtain ⟨w, hw, hwst⟩ := job_exists_of_phase h hc
          have ha : statusOf s k = some "queued" := by simp [statusOf, hw, hwst, phaseStatus]
          have hb : statusOf
              { jobs := alSet s.jobs k processingRec,
                tasks := alSet s.tasks k Phase.running } k = some "processing" := by
            simp only [statusOf]
            rw [alGet_alSet_self, hw]
            rfl
          exact Or.inl (Or.inr (Or.inr (Or.inl ⟨ha, hb⟩)))
        · rw [statusOf_set_ne s _ _ hk]
          exact edge_refl _
      | running =>
        have heq : stepF s (Event.startOk jid) = s := by simp [stepF, hc]
        rw [heq]; exact edge_refl _
      | awaitingCommit =>
        have heq : stepF s (Event.startOk jid) = s := by simp [stepF, hc]
        rw [heq]; exact edge_refl _
  | startNoInput jid path =>
    cases hc : alGet s.tasks jid with
    | none =>
      have heq : stepF s (Event.startNoInput jid path) = s := by simp [stepF, hc]
      rw [heq]; exact edge_refl _
    | some ph =>
      cases ph with
      | spawned =>
        have heq : stepF s (Event.startNoInput jid path)
            = { jobs := alSet s.jobs jid (errorRec ("Input file not found: " ++ path)),
                tasks := alRemove s.tasks jid } := by simp [stepF, hc]
        rw [heq]
        by_cases hk : k = jid
        · subst hk
          obtain ⟨w, hw, hwst⟩ := job_exists_of_phase h hc
          have ha : statusOf s k = some "queued" := by simp [statusOf, hw, hwst, phaseStatus]
          have hb : statusOf
              { jobs := alSet s.jobs k (errorRec ("Input file not found: " ++ path)),
                tasks := alRemove s.tasks k } k = some "error" := by
            simp only [statusOf]
            rw [alGet_alSet_self, hw]
            rfl
          exact Or.inr (Or.inl ⟨ha, hb⟩)
        · rw [statusOf_set_ne s _ _ hk]
          exact edge_refl _
      | running =>
        have heq : stepF s (Event.startNoInput jid path) = s := by simp [stepF, hc]
        rw [heq]; exact edge_refl _
      | awaitingCommit =>
        have heq : stepF s (Event.startNoInput jid path) = s := by simp [stepF, hc]
        rw [heq]; exact edge_refl _
  | finishOk jid ms =>
    cases hc : alGet s.tasks jid with
    | none =>
      have heq : stepF s (Event.finishOk jid ms) = s := by simp [stepF, hc]
      rw [heq]; exact edge_refl _
    | some ph =>
      cases ph with
      | running =>
        have heq : stepF s (Event.finishOk jid ms)
            = { jobs := alSet s.jobs jid (completeRec jid ms),
                tasks := alSet s.tasks jid Phase.awaitingCommit } := by
          simp [stepF, hc]
        rw [heq]
        by_cases hk : k = jid
        · subst hk
          obtain ⟨w, hw, hwst⟩ := job_exists_of_phase h hc
          have ha : statusOf s k = some "processing" := by simp [statusOf, hw, hwst, phaseStatus]
          have hb : statusOf
              { jobs := alSet s.jobs k (completeRec k ms),
                tasks := alSet s.tasks k Phase.awaitingCommit } k = some "complete" := by
            simp only [statusOf]
            rw [alGet_alSet_self, hw]
            rfl
          exact Or.inl (Or.inr (Or.inr (Or.inr (Or.inl ⟨ha, hb⟩))))
        · rw [statusOf_set_ne s _ _ hk]
          exact edge_refl _
      | spawned =>
        have heq : stepF s (Event.finishOk jid ms) = s := by simp [stepF, hc]
        rw [heq]; exact edge_refl _
      | awaitingCommit =>
        have heq : stepF s (Event.finishOk jid ms) = s := by simp [stepF, hc]
        rw [heq]; exact edge_refl _
  | finishErr jid msg =>
    cases hc : alGet s.tasks jid with
    | none =>
      have heq : stepF s (Event.finishErr jid msg) = s := by simp [stepF, hc]
      rw [heq]; exact edge_refl _
    | some ph =>
      cases ph with
      | running =>
        have heq : stepF s (Event.finishErr jid msg)
            = { jobs := alSet s.jobs jid (errorRec msg),
                tasks := alRemove s.tasks jid } := by simp [stepF, hc]
        rw [heq]
        by_cases hk : k = jid
        · subst hk
          obtain ⟨w, hw, hwst⟩ := job_exists_of_phase h hc
          have ha : statusOf s k = some "processing" := by simp [statusOf, hw, hwst, phaseStatus]
          have hb : statusOf
              { jobs := alSet s.jobs k (errorRec msg),
                tasks := alRemove s.tasks k } k = some "error" := by
            simp only [statusOf]
            rw [alGet_alSet_self, hw]
            rfl
          exact Or.inl (Or.inr (Or.inr (Or.inr (Or.inr ⟨ha, hb⟩))))
        · rw [statusOf_set_ne s _ _ hk]
          exact edge_refl _
      | spawned =>
        have heq : stepF s (Event.finishErr jid msg) = s := by simp [stepF, hc]
        rw [heq]; exact edge_refl _
      | awaitingCommit =>
        have heq : stepF s (Event.finishErr jid msg) = s := by simp [stepF, hc]
        rw [heq]; exact edge_refl _
  | commitOk jid =>
    cases hc : alGet s.tasks jid with
    | none =>
      have heq : stepF s (Event.commitOk jid) = s := by simp [stepF, hc]
      rw [heq]; exact edge_refl _
    | some ph =>
      cases ph with
      | awaitingCommit =>
        have heq : stepF s (Event.commitOk jid)
            = { jobs := s.jobs, tasks := alRemove s.tasks jid } := by simp [stepF, hc]
        rw [heq]
        exact edge_refl _
      | spawned =>
        have heq : stepF s (Event.commitOk jid) = s := by simp [stepF, hc]
        rw [heq]; exact edge_refl _
      | running =>
        have heq : stepF s (Event.commitOk jid) = s := by simp [stepF, hc]
        rw [heq]; exact edge_refl _
  | commitFail jid msg =>
    cases hc : alGet s.tasks jid with
    | none =>
      have heq : stepF s (Event.commitFail jid msg) = s := by simp [stepF, hc]
      rw [heq]; exact edge_refl _
    | some ph =>
      cases ph with
      | awaitingCommit =>
        have heq : stepF s (Event.commitFail jid msg)
            = { jobs := alSet s.jobs jid (errorRec msg),
                tasks := alRemove s.tasks jid } := by simp [stepF, hc]
        rw [heq]
        by_cases hk : k = jid
        · subst hk
          obtain ⟨w, hw, hwst⟩ := job_exists_of_phase h hc
          have ha : statusOf s k = some "complete" := by simp [statusOf, hw, hwst, phaseStatus]
          have hb : statusOf
              { jobs := alSet s.jobs k (errorRec msg),
                tasks := alRemove s.tasks k } k = some "error" := by
            simp only [statusOf]
            rw [alGet_alSet_self, hw]
            rfl
          exact Or.inr (Or.inr ⟨ha, hb⟩)
        · rw [statusOf_set_ne s _ _ hk]
          exact edge_refl _
      | spawned =>
        have heq : stepF s (Event.commitFail jid msg) = s := by simp [stepF, hc]
        rw [heq]; exact edge_refl _
      | running =>
        have heq : stepF s (Event.commitFail jid msg) = s := by simp [stepF, hc]
        rw [heq]; exact edge_refl _

/-! ## The local server variant (server/routes/inference.py) -/

/-- A job as the local server's SplatJob model stores it (only the fields
the orchestration claims mention). -/
structure ServerJob where
  status : String
  splatUrl : Option String
  splatPath : Option String
  processingTimeMs : Option Nat
  error : Option String
deriving DecidableEq, Repr

/-- The initial record the local server's generate_splat writes
(inference.py lines 110-115): the job is created directly in processing. -/
def serverGenerateJob : ServerJob :=
  { status := "processing", splatUrl := none, splatPath := none,
    processingTimeMs := none, error := none }

/-- The record run_sharp_prediction writes when the runner returns
(inference.py lines 76-97). -/
def serverFinishJob (success : Bool) (jidStr : String) (plyFiles : List String)
    (result : String) (ms : Nat) : ServerJob :=
  if success then
    { status := "complete", splatUrl := some ("/api/download/" ++ jidStr),
      splatPath := plyFiles.head?, processingTimeMs := some ms, error := none }
  else
    { status := "error", splatUrl := none, splatPath := none,
      processingTimeMs := some ms, error := some result }

/-- CLAIM C3 (counterexample): a job whose input image is missing when
run_inference starts moves directly from queued to error, an edge outside
the claimed set; moreover the local server variant creates jobs directly in
processing, never in queued. -/
theorem c3_counterexample :
    statusOf (runEvents [Event.submit 0]) 0 = some "queued" ∧
    statusOf (runEvents [Event.submit 0, Event.startNoInput 0 "img.png"]) 0
      = some "error" ∧
    ¬ edgeSpec (some "queued") (some "error") ∧
    serverGenerateJob.status = "processing" ∧
    serverGenerateJob.status ≠ "queued" := by
  refine ⟨by decide, by decide, ?_, rfl, by decide⟩
  unfold edgeSpec
  decide

/-- CLAIM C3 (amended): every step of the system moves every job status along
an edge of queued to processing to complete or error, extended by the two
edges the code also realizes: queued to error (missing input file at
inference start) and complete to error (volume commit failure after the
complete write); jobs are created only as queued and error is a sink.  The
local server variant additionally creates its jobs directly in processing. -/
theorem c3_amended_edges (tr : List Event) (e : Event) (k : Nat) :
    edgeCode (statusOf (runEvents tr) k) (statusOf (stepF (runEvents tr) e) k) :=
  statusOf_step_edge _ (stInv_run tr) e k

/-- CLAIM C6 (confirmed): in every reachable store state, a terminal record
carries exactly one of the result locator and the error field, and a
non-terminal record carries neither. -/
theorem c6_terminal_exclusive (tr : List Event) (k : Nat) (r : JobRec)
    (h : alGet (runEvents tr).jobs k = some r) :
    ((r.status = "complete" ∨ r.status = "error") →
      ((r.splatUrl.isSome = true ∧ r.error = none) ∨
       (r.error.isSome = true ∧ r.splatUrl = none))) ∧
    ((r.status = "queued" ∨ r.status = "processing") →
      r.splatUrl = none ∧ r.error = none) := by
  have hinv := (stInv_run tr).1 _ (alGet_mem h)
  obtain ⟨hall, hcomp, herr, hnonterm⟩ := hinv
  refine ⟨fun ht => ?_, hnonterm⟩
  rcases ht with ht | ht
  · exact Or.inl (hcomp ht)
  · exact Or.inr (herr ht)

/-- Witness for c6_terminal_exclusive on a completed job. -/
theorem c6_terminal_exclusive_witness :
    (((completeRec 0 100).status = "complete" ∨ (completeRec 0 100).status = "error") →
      (((completeRec 0 100).splatUrl.isSome = true ∧ (completeRec 0 100).error = none) ∨
       ((completeRec 0 100).error.isSome = true ∧ (completeRec 0 100).splatUrl = none))) ∧
    (((completeRec 0 100).status = "queued" ∨ (completeRec 0 100).status = "processing") →
      (completeRec 0 100).splatUrl = none ∧ (completeRec 0 100).error = none) :=
  c6_terminal_exclusive [Event.submit 0, Event.startOk 0, Event.finishOk 0 100]
    0 (completeRec 0 100) (by decide)

/-- The queueLength field of the /api/stats report (modal_app.py line 906):
it counts jobs whose status equals the string pending. -/
def queueLengthStat (s : St) : Nat :=
  (s.jobs.filter (fun p => p.2.status == "pending")).length

/-- CLAIM C10 (confirmed): the stats queueLength is 0 in every reachable
state, because no write ever stores the status pending; in particular it
stays 0 while jobs wait in status queued. -/
theorem c10_queueLength_always_zero (tr : List Event) :
    queueLengthStat (runEvents tr) = 0 := by
  have hinv := (stInv_run tr).1
  unfold queueLengthStat
  rw [List.length_eq_zero]
  rw [List.filter_eq_nil_iff]
  intro p hp
  obtain ⟨hall, _, _, _⟩ := hinv p hp
  rcases hall with h | h | h | h <;> rw [h] <;> decide

/-! ## The retrying artifact reader (modal_app.py download_file, download_mesh) -/

/-- A visible store access the reader performs: a volume reload at the start
of an attempt, or the fixed two-second backoff sleep between attempts. -/
inductive StoreOp where
  | reload : StoreOp
  | sleepSecs : Nat → StoreOp
deriving DecidableEq, Repr

/-- What the outputs volume shows a reader at a given moment: whether the
job directory exists, whether the exact requested file exists, and the ply
files the directory listing yields. -/
structure StoreView where
  dirExists : Bool
  exactExists : Bool
  plyFiles : List String
deriving DecidableEq, Repr

/-- Outcome of a download request. -/
inductive DlResult where
  | ok : String → DlResult
  | invalidPath : DlResult
  | notFound : Nat → Bool → DlResult
deriving DecidableEq, Repr

/-- Final path component, as os.path.basename computes it on posix: the
characters after the last slash. -/
def basename (s : String) : String :=
  String.mk ((s.data.reverse.takeWhile (fun c => c ≠ '/')).reverse)

/-- One attempt of the retry loop (modal_app.py lines 573-591): the exact
path first, then the first ply file of the job directory listing. -/
def attemptResult (v : StoreView) (exactPath : String) : Option String :=
  if v.exactExists then some exactPath
  else if v.dirExists then v.plyFiles.head?
  else none

/-- The retry loop of download_file: r attempts remain, the current attempt
index is i, and each attempt happens at time 2 * i because the loop sleeps
two seconds between attempts (but not after the last one).  Exhaustion
reports the max_retries constant 5 and whether the directory exists at the
time of the final check. -/
def dlGo (store : Nat → StoreView) (exactPath : String) :
    Nat → Nat → List StoreOp × DlResult
  | 0, i => ([], DlResult.notFound 5 (store (2 * (i - 1))).dirExists)
  | r + 1, i =>
      match attemptResult (store (2 * i)) exactPath with
      | some f => ([StoreOp.reload], DlResult.ok f)
      | none =>
          let rest := dlGo store exactPath r (i + 1)
          (StoreOp.reload :: ((if r = 0 then [] else [StoreOp.sleepSecs 2]) ++ rest.1),
           rest.2)

/-- download_file (modal_app.py lines 541-603): basenames of the job id and
filename are compared with the given values before any volume access; on a
mismatch the request is rejected with no store operation, otherwise the
five-attempt retry loop runs. -/
def downloadFile (jobId filename : String) (store : Nat → StoreView) :
    List StoreOp × DlResult :=
  if basename jobId ≠ jobId ∨ basename filename ≠ filename then
    ([], DlResult.invalidPath)
  else
    dlGo store ("/outputs/splats/" ++ jobId ++ "/" ++ filename) 5 0

/-- Outcome of a mesh download request. -/
inductive MeshResult where
  | ok : String → MeshResult
  | invalidPath : MeshResult
  | notFound : MeshResult
deriving DecidableEq, Repr

/-- download_mesh (modal_app.py lines 777-803): basename check before the
volume reload, then a single existence check with no retry. -/
def downloadMesh (filename : String) (store : StoreView) :
    List StoreOp × MeshResult :=
  if basename filename ≠ filename then ([], MeshResult.invalidPath)
  else ([StoreOp.reload],
    if store.exactExists then MeshResult.ok ("/outputs/meshes/" ++ filename)
    else MeshResult.notFound)

/-- A store where the artifact (directory, exact file and listing) becomes
visible at time v and stays visible. -/
def visibleFrom (v : Nat) : Nat → StoreView := fun t =>
  if v ≤ t then { dirExists := true, exactExists := true, plyFiles := ["splat.ply"] }
  else { dirExists := false, exactExists := false, plyFiles := [] }

theorem dlGo_zero (store : Nat → StoreView) (p : String) (i : Nat) :
    dlGo store p 0 i = ([], DlResult.notFound 5 (store (2 * (i - 1))).dirExists) := rfl

theorem dlGo_found {store : Nat → StoreView} {p : String} {i : Nat} {f : String}
    (r : Nat) (h : attemptResult (store (2 * i)) p = some f) :
    dlGo store p (r + 1) i = ([StoreOp.reload], DlResult.ok f) := by
  simp [dlGo, h]

theorem dlGo_miss_snd (store : Nat → StoreView) (p : String) (i r : Nat)
    (h : attemptResult (store (2 * i)) p = none) :
    (dlGo store p (r + 1) i).2 = (dlGo store p r (i + 1)).2 := by
  simp [dlGo, h]

/-- CLAIM C7 (counterexample): with the five attempts and the two-second
backoff, an artifact that becomes visible 9 seconds after the start is
within attempts times backoff = 10 seconds, yet the read fails: the last
visibility check happens at 8 seconds. -/
theorem c7_counterexample :
    (9 : Nat) ≤ 5 * 2 ∧
    (downloadFile "job1" "splat.ply" (visibleFrom 9)).2 = DlResult.notFound 5 false := by
  exact ⟨by decide, by decide⟩

/-- CLAIM C7 (amended): the read succeeds exactly when the artifact becomes
visible within (attempts - 1) * backoff = 8 seconds of the start, the time
of the fifth and last visibility check; otherwise it fails with NotFound
carrying the attempt bound of 5 and the directory diagnostic, after exactly
the bounded number of attempts. -/
theorem c7_amended_visibility (v : Nat) :
    (downloadFile "job1" "splat.ply" (visibleFrom v)).2
      = if v ≤ (5 - 1) * 2 then DlResult.ok "/outputs/splats/job1/splat.ply"
        else DlResult.notFound 5 false := by
  have hred : downloadFile "job1" "splat.ply" (visibleFrom v)
      = dlGo (visibleFrom v) "/outputs/splats/job1/splat.ply" 5 0 := rfl
  by_cases h8 : v ≤ 8
  · interval_cases v <;> decide
  · rw [hred, if_neg (by omega)]
    have hmiss : ∀ t : Nat, t ≤ 8 →
        attemptResult (visibleFrom v t) "/outputs/splats/job1/splat.ply" = none := by
      intro t ht
      have : ¬ v ≤ t := by omega
      simp [attemptResult, visibleFrom, this]
    have e1 := dlGo_miss_snd (visibleFrom v)
      "/outputs/splats/job1/splat.ply" 0 4 (hmiss 0 (by omega))
    have e2 := dlGo_miss_snd (visibleFrom v)
      "/outputs/splats/job1/splat.ply" 1 3 (hmiss 2 (by omega))
    have e3 := dlGo_miss_snd (visibleFrom v)
      "/outputs/splats/job1/splat.ply" 2 2 (hmiss 4 (by omega))
    have e4 := dlGo_miss_snd (visibleFrom v)
      "/outputs/splats/job1/splat.ply" 3 1 (hmiss 6 (by omega))
    have e5 := dlGo_miss_snd (visibleFrom v)
      "/outputs/splats/job1/splat.ply" 4 0 (hmiss 8 (by omega))
    rw [e1, e2, e3, e4, e5, dlGo_zero]
    have : ¬ v ≤ 2 * (5 - 1) := by omega
    simp [visibleFrom, this]

/-- CLAIM C9 (confirmed): a download request whose job id or filename has a
basename differing from the given value is rejected as an invalid path with
an empty store-operation trace: no reload, listing or read happens.  The
same holds for the mesh download endpoint. -/
theorem c9_traversal_rejected (jobId filename : String) (store : Nat → StoreView)
    (mstore : StoreView)
    (h : basename jobId ≠ jobId ∨ basename filename ≠ filename) :
    downloadFile jobId filename store = ([], DlResult.invalidPath) ∧
    (basename filename ≠ filename →
      downloadMesh filename mstore = ([], MeshResult.invalidPath)) := by
  constructor
  · unfold downloadFile
    rw [if_pos h]
  · intro hf
    unfold downloadMesh
    rw [if_pos hf]

/-- Witness for c9_traversal_rejected on a traversal-shaped filename. -/
theorem c9_traversal_rejected_witness :
    downloadFile "job1" "../../etc/passwd" (visibleFrom 0) = ([], DlResult.invalidPath) ∧
    (basename "../../etc/passwd" ≠ "../../etc/passwd" →
      downloadMesh "../../etc/passwd" (visibleFrom 0 0) = ([], MeshResult.invalidPath)) :=
  c9_traversal_rejected "job1" "../../etc/passwd" (visibleFrom 0) (visibleFrom 0 0)
    (Or.inr (by decide))

/-! ## Color post-processing (claims C5, C8) -/

/-- The spherical-harmonic DC normalization constant as the code writes it. -/
def SH_C0 : ℚ := 28209479177387814 / 100000000000000000

/-- Display channel as the code computes it (modal_app.py lines 94-96,
ply_to_splat.py lines 49-61): scale, clip to the byte range with np.clip,
then truncate to uint8 (floor, the value being non-negative after the clip). -/
def channelCode (c : ℚ) : ℤ := ⌊min (max ((1/2 + SH_C0 * c) * 255) 0) 255⌋

/-- Display channel as the claim words it: round, then clamp. -/
def channelSpec (c : ℚ) : ℤ := min (max (round ((1/2 + SH_C0 * c) * 255)) 0) 255

/-- The logistic function applied to the opacity logit. -/
noncomputable def sigmoid (o : ℝ) : ℝ := 1 / (1 + Real.exp (-o))

/-- Alpha channel as the code computes it: sigmoid, scale, clip, truncate. -/
noncomputable def alphaCode (o : ℝ) : ℤ := ⌊min (max (sigmoid o * 255) 0) 255⌋

theorem exp_ten_gt : (9536 : ℝ) < Real.exp 10 := by
  have h1 : (2.5 : ℝ) < Real.exp 1 := by
    have h := Real.exp_one_gt_d9
    norm_num at h ⊢
    linarith
  have h2 : (2.5 : ℝ) ^ (10 : ℕ) < Real.exp 1 ^ (10 : ℕ) :=
    pow_lt_pow_left₀ h1 (by norm_num) (by norm_num)
  rw [Real.exp_one_pow] at h2
  have h3 : ((10 : ℕ) : ℝ) = (10 : ℝ) := by norm_num
  rw [h3] at h2
  calc (9536 : ℝ) < 2.5 ^ (10 : ℕ) := by norm_num
    _ < Real.exp 10 := h2

theorem channelCode_six_fifths : channelCode (6/5) = 213 := by
  unfold channelCode SH_C0
  have h2 : ((1:ℚ)/2 + 28209479177387814 / 100000000000000000 * (6/5)) * 255 ≥ 0 := by
    norm_num
  have h1 : ((1:ℚ)/2 + 28209479177387814 / 100000000000000000 * (6/5)) * 255 ≤ 255 := by
    norm_num
  rw [max_eq_left h2, min_eq_left h1, Int.floor_eq_iff]
  constructor <;> norm_num

theorem channelSpec_six_fifths : channelSpec (6/5) = 214 := by
  unfold channelSpec SH_C0
  rw [round_eq]
  have hfl : ⌊((1:ℚ)/2 + 28209479177387814 / 100000000000000000 * (6/5)) * 255 + 1/2⌋
      = (214:ℤ) := by
    rw [Int.floor_eq_iff]
    constructor <;> norm_num
  rw [hfl]
  decide

/-- CLAIM C5 (counterexample): at DC coefficient 6/5 the scaled channel value
is 213.821..., which the code truncates to 213 while the claimed
round-then-clamp formula yields 214. -/
theorem c5_counterexample :
    channelCode (6/5) = 213 ∧ channelSpec (6/5) = 214 ∧
    channelCode (6/5) ≠ channelSpec (6/5) := by
  refine ⟨channelCode_six_fifths, channelSpec_six_fifths, ?_⟩
  rw [channelCode_six_fifths, channelSpec_six_fifths]
  decide

/-- CLAIM C5 (amended): the code computes channel = floor(clip((0.5 + K c) x
255, 0, 255)) — truncation, not rounding — and alpha = floor(clip(sigmoid(o)
x 255, 0, 255)); the claimed consequences hold in truncated form: a zero
coefficient gives channel exactly 127, zero opacity gives alpha exactly 127,
opacity +10 gives alpha above 250 and opacity -10 gives alpha below 5. -/
theorem c5_amended_truncated_channels :
    channelCode 0 = 127 ∧ alphaCode 0 = 127 ∧
    250 < alphaCode 10 ∧ alphaCode (-10) < 5 := by
  refine ⟨?_, ?_, ?_, ?_⟩
  · unfold channelCode SH_C0
    have h2 : ((1:ℚ)/2 + 28209479177387814 / 100000000000000000 * 0) * 255 ≥ 0 := by
      norm_num
    have h1 : ((1:ℚ)/2 + 28209479177387814 / 100000000000000000 * 0) * 255 ≤ 255 := by
      norm_num
    rw [max_eq_left h2, min_eq_left h1, Int.floor_eq_iff]
    constructor <;> norm_num
  · unfold alphaCode sigmoid
    rw [neg_zero, Real.exp_zero]
    have hv : (1:ℝ) / (1 + 1) * 255 = 255 / 2 := by ring
    rw [hv]
    rw [max_eq_left (by norm_num), min_eq_left (by norm_num)]
    rw [Int.floor_eq_iff]
    constructor <;> norm_num
  · unfold alphaCode sigmoid
    have hexp := exp_ten_gt
    have hepos : 0 < Real.exp (-10) := Real.exp_pos _
    have hmul : Real.exp (-10) * Real.exp 10 = 1 := by
      rw [← Real.exp_add]; norm_num
    have hesmall : Real.exp (-10) < 1 / 9536 := by
      rw [lt_div_iff₀ (by norm_num : (0:ℝ) < 9536)]
      nlinarith
    have hpos : (0:ℝ) < 1 + Real.exp (-10) := by linarith
    have hx1 : (251 : ℝ) ≤ 1 / (1 + Real.exp (-10)) * 255 := by
      rw [div_mul_eq_mul_div, one_mul, le_div_iff₀ hpos]
      nlinarith
    have hx2 : (1:ℝ) / (1 + Real.exp (-10)) * 255 ≤ 255 := by
      rw [div_mul_eq_mul_div, one_mul, div_le_iff₀ hpos]
      nlinarith
    have hx0 : (0:ℝ) ≤ 1 / (1 + Real.exp (-10)) * 255 := by positivity
    rw [max_eq_left hx0, min_eq_left hx2]
    have hfl : (251 : ℤ) ≤ ⌊1 / (1 + Real.exp (-10)) * 255⌋ := by
      rw [Int.le_floor]
      exact_mod_cast hx1
    omega
  · unfold alphaCode sigmoid
    have hexp := exp_ten_gt
    have hpos : (0:ℝ) < 1 + Real.exp (-(-10)) := by
      have := Real.exp_pos (-(-10)); linarith
    have hx0 : (0:ℝ) ≤ 1 / (1 + Real.exp (-(-10))) * 255 := by positivity
    have hx2 : (1:ℝ) / (1 + Real.exp (-(-10))) * 255 ≤ 255 := by
      rw [div_mul_eq_mul_div, one_mul, div_le_iff₀ hpos]
      nlinarith [Real.exp_pos (-(-10))]
    have hx5 : (1:ℝ) / (1 + Real.exp (-(-10))) * 255 < 5 := by
      rw [div_mul_eq_mul_div, one_mul, div_lt_iff₀ hpos]
      have h10 : Real.exp (-(-10)) = Real.exp 10 := by norm_num
      rw [h10]
      nlinarith
    rw [max_eq_left hx0, min_eq_left hx2]
    have hfl : ⌊(1:ℝ) / (1 + Real.exp (-(-10))) * 255⌋ < (5:ℤ) := by
      rw [Int.floor_lt]
      exact_mod_cast hx5
    omega

/-! ## PLY color augmentation (claim C8) -/

/-- The normalization constant over the reals, for the per-point columns. -/
noncomputable def SH_C0_R : ℝ := 0.28209479177387814

/-- A stored display-channel byte as a real value. -/
noncomputable def channelByteR (c : ℝ) : ℝ :=
  ((⌊min (max ((1/2 + SH_C0_R * c) * 255) 0) 255⌋ : ℤ) : ℝ)

/-- A stored alpha byte as a real value. -/
noncomputable def alphaByteR (o : ℝ) : ℝ :=
  ((⌊min (max (sigmoid o * 255) 0) 255⌋ : ℤ) : ℝ)

/-- add_blender_vertex_colors (modal_app.py lines 67-128) on the vertex
element, modelled as named per-point columns: a no-op when a red column is
already present; otherwise the red, green, blue and alpha columns derived
from the f_dc coefficients and the opacity logit are appended after all
existing columns; any failure (such as a missing input column, whose
KeyError the except handler swallows) leaves the data unchanged. -/
noncomputable def add_blender_vertex_colors (p : List (String × List ℝ)) :
    List (String × List ℝ) :=
  if (alGet p "red").isSome then p
  else
    match alGet p "f_dc_0", alGet p "f_dc_1", alGet p "f_dc_2", alGet p "opacity" with
    | some c0, some c1, some c2, some op =>
        p ++ [("red", c0.map channelByteR), ("green", c1.map channelByteR),
              ("blue", c2.map channelByteR), ("alpha", op.map alphaByteR)]
    | _, _, _, _ => p

/-- CLAIM C8 (confirmed): the color post-processing is idempotent — the
second application sees the red column and is a no-op — and additive: every
pre-existing column is preserved unchanged, and only the four color columns
can appear beyond them. -/
theorem c8_idempotent_additive (p : List (String × List ℝ)) (nm : String) :
    add_blender_vertex_colors (add_blender_vertex_colors p)
      = add_blender_vertex_colors p ∧
    (alGet (add_blender_vertex_colors p) nm = alGet p nm ∨
      (alGet p nm = none ∧
        (nm = "red" ∨ nm = "green" ∨ nm = "blue" ∨ nm = "alpha"))) := by
  by_cases hr : (alGet p "red").isSome
  · have heq : add_blender_vertex_colors p = p := by
      unfold add_blender_vertex_colors
      rw [if_pos hr]
    refine ⟨?_, Or.inl ?_⟩
    · rw [heq, heq]
    · rw [heq]
  · have hrn : alGet p "red" = none := Option.not_isSome_iff_eq_none.mp hr
    cases h0 : alGet p "f_dc_0" with
    | none =>
      have heq : add_blender_vertex_colors p = p := by
        simp [add_blender_vertex_colors, hr, h0]
      refine ⟨?_, Or.inl ?_⟩
      · rw [heq, heq]
      · rw [heq]
    | some c0 =>
      cases h1 : alGet p "f_dc_1" with
      | none =>
        have heq : add_blender_vertex_colors p = p := by
          simp [add_blender_vertex_colors, hr, h0, h1]
        refine ⟨?_, Or.inl ?_⟩
        · rw [heq, heq]
        · rw [heq]
      | some c1 =>
        cases h2 : alGet p "f_dc_2" with
        | none =>
          have heq : add_blender_vertex_colors p = p := by
            simp [add_blender_vertex_colors, hr, h0, h1, h2]
          refine ⟨?_, Or.inl ?_⟩
          · rw [heq, heq]
          · rw [heq]
        | some c2 =>
          cases h3 : alGet p "opacity" with
          | none =>
            have heq : add_blender_vertex_colors p = p := by
              simp [add_blender_vertex_colors, hr, h0, h1, h2, h3]
            refine ⟨?_, Or.inl ?_⟩
            · rw [heq, heq]
            · rw [heq]
          | some op =>
            have heq : add_blender_vertex_colors p
                = p ++ [("red", c0.map channelByteR), ("green", c1.map channelByteR),
                        ("blue", c2.map channelByteR), ("alpha", op.map alphaByteR)] := by
              simp [add_blender_vertex_colors, hr, h0, h1, h2, h3]
            have hq : alGet (p ++ [("red", c0.map channelByteR),
                ("green", c1.map channelByteR), ("blue", c2.map channelByteR),
                ("alpha", op.map alphaByteR)]) "red" = some (c0.map channelByteR) := by
              rw [alGet_append_right _ hrn]
              simp [alGet]
            constructor
            · have hsecond : add_blender_vertex_colors (p ++ [("red", c0.map channelByteR),
                  ("green", c1.map channelByteR), ("blue", c2.map channelByteR),
                  ("alpha", op.map alphaByteR)])
                  = p ++ [("red", c0.map channelByteR), ("green", c1.map channelByteR),
                          ("blue", c2.map channelByteR), ("alpha", op.map alphaByteR)] := by
                unfold add_blender_vertex_colors
                rw [hq]
                simp
              rw [heq, hsecond]
            · cases hnm : alGet p nm with
              | some v =>
                left
                rw [heq]
                rw [alGet_append_left _ hnm]
              | none =>
                by_cases e1 : nm = "red"
                · exact Or.inr ⟨rfl, Or.inl e1⟩
                · by_cases e2 : nm = "green"
                  · exact Or.inr ⟨rfl, Or.inr (Or.inl e2)⟩
                  · by_cases e3 : nm = "blue"
                    · exact Or.inr ⟨rfl, Or.inr (Or.inr (Or.inl e3))⟩
                    · by_cases e4 : nm = "alpha"
                      · exact Or.inr ⟨rfl, Or.inr (Or.inr (Or.inr e4))⟩
                      · left
                        have f1 : "red" ≠ nm := fun h => e1 h.symm
                        have f2 : "green" ≠ nm := fun h => e2 h.symm
                        have f3 : "blue" ≠ nm := fun h => e3 h.symm
                        have f4 : "alpha" ≠ nm := fun h => e4 h.symm
                        rw [heq, alGet_append_right _ hnm]
                        simp [alGet, f1, f2, f3, f4]
